import Mathlib

/-!
Verification of the `s3-file` repository (`src/s3_reader/file.py`).

Paths are modelled as `List Char` (the repository runs on a POSIX platform,
so `str(pathlib.Path(p))` is POSIX path normalization).  The stateful parts
(`__post_init__`, `download_s3_file`, `__del__`) are modelled by explicit
state passing over a process state holding the process-wide random-generator
state and the set of temp files on disk; the external collaborator
(`boto3_session.Session`) is an abstract perturbation of the random state
together with success flags for session construction and download.
-/

namespace S3Reader

/-- Python `":/" in s` (substring test for a colon followed by a slash). -/
def hasColonSlash : List Char → Bool
  | [] => false
  | x :: rest =>
    match rest with
    | [] => false
    | y :: _ => if x = ':' ∧ y = '/' then true else hasColonSlash rest

/-- Prepend a character to the first piece of a split (Python string
concatenation of a leading character onto the first split piece). -/
def consHead (x : Char) : List (List Char) → List (List Char)
  | [] => [[x]]
  | h :: t => (x :: h) :: t

/-- Python `s.split(":/")`: split on every occurrence of the two-character
separator `":/"`, scanned left to right.  Processing is one character at a
time from the right: the first piece of the tail's split is exactly the
tail's text up to the next separator, so the tail starts with `'/'` iff
that first piece does; on `':'` before such a piece, a separator is
consumed and a new empty piece begins.  `splitColonSlash_sep` and
`splitColonSlash_cons_of_ne` below recover Python's natural left-to-right
recurrence. -/
def splitColonSlash (l : List Char) : List (List Char) :=
  l.foldr
    (fun x r =>
      if x = ':' then
        match r with
        | ('/' :: h) :: t => [] :: h :: t
        | r' => consHead x r'
      else consHead x r)
    [[]]

/-- The text strictly before the first occurrence of `":/"` (the whole
string when there is no occurrence). -/
def beforeColonSlash : List Char → List Char
  | [] => []
  | x :: rest =>
    match rest with
    | [] => [x]
    | y :: _ => if x = ':' ∧ y = '/' then [] else x :: beforeColonSlash rest

/-- The text strictly after the first occurrence of `":/"` (empty when
there is no occurrence). -/
def afterColonSlash : List Char → List Char
  | [] => []
  | x :: rest =>
    match rest with
    | [] => []
    | y :: rest2 => if x = ':' ∧ y = '/' then rest2 else afterColonSlash rest

/-- The root prefix kept by POSIX `pathlib` normalization: a leading `//`
(exactly two slashes) is preserved, any other number of leading slashes
collapses to one, and a relative path has no root. -/
def pathRoot (s : List Char) : List Char :=
  if s.headD ' ' = '/' then
    if (s.drop 1).headD ' ' = '/' then
      if (s.drop 2).headD ' ' = '/' then ['/'] else ['/', '/']
    else ['/']
  else []

/-- A path segment survives `pathlib` normalization iff it is neither empty
nor the single-dot segment. -/
def keepSeg (t : List Char) : Bool := decide (t ≠ [] ∧ t ≠ ['.'])

/-- Python `str(pathlib.PurePosixPath(s))`: keep the root, drop empty and
`.` segments, re-join the rest with single slashes; an empty result with no
root renders as `"."`. -/
def normPath (s : List Char) : List Char :=
  let segs := (s.splitOn '/').filter keepSeg
  if segs = [] then (if pathRoot s = [] then ['.'] else pathRoot s)
  else pathRoot s ++ List.intercalate ['/'] segs

/-- `File.fix_path`: the empty path maps to itself; a path containing `":/"`
is rebuilt as `pieces[0] + ":/" + str(Path(pieces[1]))` from its
`":/"`-split; otherwise the whole path is normalized. -/
def fix_path (path : List Char) : List Char :=
  if path = [] then []
  else if hasColonSlash path then
    match splitColonSlash path with
    | p0 :: p1 :: _ => p0 ++ ':' :: '/' :: normPath p1
    | _ => []
  else normPath path

/-- `File.extract_s3_info`: split on `/`; segment 2 is the bucket, segments
from 3 on re-joined with `/` are the file name, and the extension is the
last piece of the `.`-split of the last segment.  `none` models the
`IndexError` Python raises at `split_path[2]` when fewer than three
segments exist. -/
def extract_s3_info (path : List Char) : Option (List Char × List Char × List Char) :=
  let split_path := path.splitOn '/'
  if h : 2 < split_path.length then
    let bucket_name := split_path[2]
    let file_name := List.intercalate ['/'] (split_path.drop 3)
    let file_extension := ((split_path.getLastD []).splitOn '.').getLastD []
    some (bucket_name, file_name, file_extension)
  else none

/-- Python `path.startswith("s3:")`. -/
def startsWithS3 (path : List Char) : Bool :=
  match path with
  | 's' :: '3' :: ':' :: _ => true
  | _ => false

/-- Process-wide mutable state touched by the code: the global
pseudo-random-number-generator state (`random.getstate` / `random.setstate`)
and the set of temporary files currently existing on disk. -/
structure Proc where
  rng : Nat
  disk : List (List Char)
deriving DecidableEq

/-- The environment supplied by the outside world during one construction:
the effect of `boto3_session.Session(...)` on the global random state, a flag
for whether session construction succeeds, a flag for whether
`bucket.download_file` succeeds, and the base name the OS picks for
`tempfile.NamedTemporaryFile` (the real name is this base plus the
`"." + extension` suffix the code requests). -/
structure Env where
  perturb : Nat → Nat
  sessionOk : Bool
  downloadOk : Bool
  tempBase : List Char

/-- The fields of the `File` dataclass that the claims are about. -/
structure File where
  orig_path : List Char
  path : List Char
  tmp_file : Option (List Char)
deriving DecidableEq

/-- `File.download_s3_file`, as state passing in source order: snapshot the
random state, extract bucket/key/extension (`none` = `IndexError`), create
the named temp file (suffix `"." + extension`), construct the session
(perturbing the global random state; may fail), download (may fail), assign
`self.tmp_file`, restore the random state, return the temp file's name.
Result: (process state, `self.tmp_file` afterwards, returned path or `none`
when an exception propagates). -/
def download_s3_file (env : Env) (path : List Char) (tmp : Option (List Char)) (s : Proc) :
    Proc × Option (List Char) × Option (List Char) :=
  let state := s.rng
  match extract_s3_info path with
  | none => (s, tmp, none)
  | some (_bucket_name, _file_name, file_extension) =>
    let temp_file := env.tempBase ++ '.' :: file_extension
    let s1 : Proc := { s with disk := temp_file :: s.disk }
    let s2 : Proc := { s1 with rng := env.perturb s1.rng }
    if env.sessionOk then
      if env.downloadOk then ({ s2 with rng := state }, some temp_file, some temp_file)
      else (s2, tmp, none)
    else (s2, tmp, none)

/-- `File.__post_init__`: remember the original path, normalize it, start
with no temp file, and download exactly when the normalized path starts
with `"s3:"`.  `none` models the constructor raising. -/
def post_init (env : Env) (input : List Char) (s : Proc) : Proc × Option File :=
  let orig_path := input
  let path := fix_path input
  let tmp_file : Option (List Char) := none
  if startsWithS3 path then
    match download_s3_file env path tmp_file s with
    | (s', tmp', some newPath) => (s', some ⟨orig_path, newPath, tmp'⟩)
    | (s', _, none) => (s', none)
  else (s, some ⟨orig_path, path, tmp_file⟩)

/-- `File.__del__`: closing a `NamedTemporaryFile` deletes its backing file
from disk; when no temp file was ever created nothing happens. -/
def fileDel (f : File) (s : Proc) : Proc :=
  match f.tmp_file with
  | none => s
  | some name => { s with disk := s.disk.erase name }

/-- A list of lists flagged by `hasColonEndNonLast` when some element other
than the last one ends in `':'` (the way a `":/"` substring can arise when
such pieces are re-joined with `'/'`). -/
def hasColonEndNonLast : List (List Char) → Bool
  | [] => false
  | [_] => false
  | s :: rest => (s.getLastD ' ' == ':') || hasColonEndNonLast rest

end S3Reader

namespace S3Reader

theorem consHead_ne_nil (x : Char) (r : List (List Char)) : consHead x r ≠ [] := by
  cases r <;> simp [consHead]

theorem splitColonSlash_nil : splitColonSlash [] = [[]] := rfl

theorem splitColonSlash_cons (x : Char) (rest : List Char) :
    splitColonSlash (x :: rest) =
      if x = ':' then
        match splitColonSlash rest with
        | ('/' :: h) :: t => [] :: h :: t
        | r' => consHead x r'
      else consHead x (splitColonSlash rest) := by
  simp [splitColonSlash]

theorem splitColonSlash_ne_nil (l : List Char) : splitColonSlash l ≠ [] := by
  induction l with
  | nil => simp [splitColonSlash_nil]
  | cons x rest ih =>
    rw [splitColonSlash_cons]
    split
    · split
      · simp
      · exact consHead_ne_nil _ _
    · exact consHead_ne_nil _ _

theorem splitColonSlash_head (y : Char) (rest : List Char) :
    (∃ t, splitColonSlash (y :: rest) = [] :: t) ∨
      ∃ h t, splitColonSlash (y :: rest) = (y :: h) :: t := by
  rw [splitColonSlash_cons]
  rcases hs : splitColonSlash rest with _ | ⟨h2, t2⟩
  · exact absurd hs (splitColonSlash_ne_nil rest)
  · by_cases hy : y = ':'
    · rw [if_pos hy]
      split
      · exact Or.inl ⟨_, rfl⟩
      · rw [consHead]
        exact Or.inr ⟨h2, t2, rfl⟩
    · rw [if_neg hy, consHead]
      exact Or.inr ⟨h2, t2, rfl⟩

theorem splitColonSlash_cons_of_ne (x y : Char) (rest : List Char) (h : ¬(x = ':' ∧ y = '/')) :
    splitColonSlash (x :: y :: rest) = consHead x (splitColonSlash (y :: rest)) := by
  by_cases hx : x = ':'
  · subst hx
    have hy : y ≠ '/' := fun hy => h ⟨rfl, hy⟩
    rw [splitColonSlash_cons, if_pos rfl]
    rcases splitColonSlash_head y rest with ⟨t, ht⟩ | ⟨h1, t1, ht⟩
    · rw [ht]
    · rw [ht]
      split
      · rename_i heq
        rw [List.cons.injEq, List.cons.injEq] at heq
        exact absurd heq.1.1 hy
      · rfl
  · rw [splitColonSlash_cons, if_neg hx]

theorem splitColonSlash_sep (rest : List Char) :
    splitColonSlash (':' :: '/' :: rest) = [] :: splitColonSlash rest := by
  rcases hs : splitColonSlash rest with _ | ⟨h, t⟩
  · exact absurd hs (splitColonSlash_ne_nil rest)
  · have h2 : splitColonSlash ('/' :: rest) = ('/' :: h) :: t := by
      rw [splitColonSlash_cons, if_neg (by decide : ¬('/' : Char) = ':'), hs, consHead]
    rw [splitColonSlash_cons, if_pos rfl, h2]
    rfl

theorem hasColonSlash_cons2 (x y : Char) (rest : List Char) :
    hasColonSlash (x :: y :: rest) =
      if x = ':' ∧ y = '/' then true else hasColonSlash (y :: rest) := rfl

theorem beforeColonSlash_cons2 (x y : Char) (rest : List Char) :
    beforeColonSlash (x :: y :: rest) =
      if x = ':' ∧ y = '/' then [] else x :: beforeColonSlash (y :: rest) := rfl

theorem afterColonSlash_cons2 (x y : Char) (rest : List Char) :
    afterColonSlash (x :: y :: rest) =
      if x = ':' ∧ y = '/' then rest else afterColonSlash (y :: rest) := rfl

theorem splitColonSlash_of_not_has (l : List Char) (h : hasColonSlash l = false) :
    splitColonSlash l = [l] := by
  induction l with
  | nil => rfl
  | cons x rest ih =>
    cases rest with
    | nil =>
      rw [splitColonSlash_cons]
      split
      · rfl
      · rfl
    | cons y rest2 =>
      rw [hasColonSlash_cons2] at h
      by_cases hc : x = ':' ∧ y = '/'
      · rw [if_pos hc] at h
        exact absurd h (by simp)
      · rw [if_neg hc] at h
        rw [splitColonSlash_cons_of_ne x y rest2 hc, ih h]
        rfl

theorem splitColonSlash_of_has (l : List Char) (h : hasColonSlash l = true) :
    splitColonSlash l = beforeColonSlash l :: splitColonSlash (afterColonSlash l) := by
  induction l with
  | nil => simp [hasColonSlash] at h
  | cons x rest ih =>
    cases rest with
    | nil => simp [hasColonSlash] at h
    | cons y rest2 =>
      by_cases hc : x = ':' ∧ y = '/'
      · obtain ⟨hx, hy⟩ := hc
        subst hx; subst hy
        rw [splitColonSlash_sep, beforeColonSlash_cons2, afterColonSlash_cons2,
          if_pos ⟨rfl, rfl⟩, if_pos ⟨rfl, rfl⟩]
      · rw [hasColonSlash_cons2, if_neg hc] at h
        rw [splitColonSlash_cons_of_ne x y rest2 hc, ih h, beforeColonSlash_cons2,
          afterColonSlash_cons2, if_neg hc, if_neg hc, consHead]

theorem afterColonSlash_of_not_has (l : List Char) (h : hasColonSlash l = false) :
    afterColonSlash l = [] := by
  induction l with
  | nil => rfl
  | cons x rest ih =>
    cases rest with
    | nil => rfl
    | cons y rest2 =>
      rw [hasColonSlash_cons2] at h
      by_cases hc : x = ':' ∧ y = '/'
      · rw [if_pos hc] at h
        exact absurd h (by simp)
      · rw [if_neg hc] at h
        rw [afterColonSlash_cons2, if_neg hc]
        exact ih h

theorem hasColonSlash_of_after (l : List Char) (h : hasColonSlash (afterColonSlash l) = true) :
    hasColonSlash l = true := by
  by_contra hcon
  rw [afterColonSlash_of_not_has l (Bool.eq_false_iff.mpr hcon)] at h
  simp [hasColonSlash] at h

theorem hasColonSlash_ne_nil (l : List Char) (h : hasColonSlash l = true) : l ≠ [] := by
  rintro rfl
  simp [hasColonSlash] at h

end S3Reader

example : S3Reader.fix_path "scheme://bucket//a//b".toList = "scheme://bucket/a/b".toList := by
  decide

example : S3Reader.fix_path "s3://b/a:/c".toList = "s3://b/a".toList := by decide

example : S3Reader.fix_path "a//b/./c/".toList = "a/b/c".toList := by decide

example : S3Reader.extract_s3_info "scheme://my-bucket/dir/file.csv".toList =
    some ("my-bucket".toList, "dir/file.csv".toList, "csv".toList) := by decide

example : S3Reader.extract_s3_info "scheme://my-bucket/dir/file".toList =
    some ("my-bucket".toList, "dir/file".toList, "file".toList) := by decide

example : S3Reader.extract_s3_info "s3:/bucket".toList = none := by decide

example :
    S3Reader.post_init ⟨Nat.succ, true, true, "/tmp/t0".toList⟩ "s3://b/f.csv".toList ⟨0, []⟩ =
      (⟨0, ["/tmp/t0.csv".toList]⟩,
        some ⟨"s3://b/f.csv".toList, "/tmp/t0.csv".toList, some "/tmp/t0.csv".toList⟩) := by
  rfl

example :
    S3Reader.post_init ⟨Nat.succ, true, true, "/tmp/t0".toList⟩ "dir//file.txt".toList ⟨0, []⟩ =
      (⟨0, []⟩, some ⟨"dir//file.txt".toList, "dir/file.txt".toList, none⟩) := by
  rfl

example :
    S3Reader.post_init ⟨Nat.succ, false, true, "/tmp/t0".toList⟩ "s3://b/f.csv".toList ⟨0, []⟩ =
      (⟨1, ["/tmp/t0.csv".toList]⟩, none) := by
  rfl

namespace S3Reader

/-- For a path containing `":/"` exactly once, `fix_path` keeps the scheme
prefix verbatim and normalizes the rest. -/
theorem fix_path_one_sep (l : List Char) (h1 : hasColonSlash l = true)
    (h2 : hasColonSlash (afterColonSlash l) = false) :
    fix_path l = beforeColonSlash l ++ ':' :: '/' :: normPath (afterColonSlash l) := by
  have hne : l ≠ [] := hasColonSlash_ne_nil l h1
  have hsp : splitColonSlash l = [beforeColonSlash l, afterColonSlash l] := by
    rw [splitColonSlash_of_has l h1, splitColonSlash_of_not_has _ h2]
  simp only [fix_path]
  rw [if_neg hne, if_pos h1, hsp]

/-- Claim C10: on a path containing `":/"` at least twice, `fix_path`
keeps only the text before the first `":/"` plus the normalized segment
between the first and the second `":/"`; everything from the second `":/"`
on is silently discarded. -/
theorem claim_C10 (l : List Char) (h2 : hasColonSlash (afterColonSlash l) = true) :
    fix_path l =
      beforeColonSlash l ++ ':' :: '/' ::
        normPath (beforeColonSlash (afterColonSlash l)) := by
  have h1 : hasColonSlash l = true := hasColonSlash_of_after l h2
  have hne : l ≠ [] := hasColonSlash_ne_nil l h1
  have hsp : splitColonSlash l =
      beforeColonSlash l :: beforeColonSlash (afterColonSlash l) ::
        splitColonSlash (afterColonSlash (afterColonSlash l)) := by
    rw [splitColonSlash_of_has l h1, splitColonSlash_of_has _ h2]
  simp only [fix_path]
  rw [if_neg hne, if_pos h1, hsp]

/-- Witness for C10 at the input `"s3://b/a:/c"`: the second `":/"` exists,
and the result is `"s3://b/a"` — the trailing `"c"` is discarded. -/
theorem claim_C10_witness :
    hasColonSlash (afterColonSlash "s3://b/a:/c".toList) = true ∧
    fix_path "s3://b/a:/c".toList =
      beforeColonSlash "s3://b/a:/c".toList ++ ':' :: '/' ::
        normPath (beforeColonSlash (afterColonSlash "s3://b/a:/c".toList)) ∧
    fix_path "s3://b/a:/c".toList = "s3://b/a".toList :=
  ⟨by decide, claim_C10 _ (by decide), by decide⟩

/-- Counterexample to claim C3 as stated: on `"s3://b/a:/c"` (which contains
a scheme separator) `fix_path` does NOT equal the scheme prefix plus the
normalization of everything after the first `":/"` — the text after the
second `":/"` is dropped. -/
theorem claim_C3_counterexample :
    ¬ (fix_path "s3://b/a:/c".toList =
        beforeColonSlash "s3://b/a:/c".toList ++ ':' :: '/' ::
          normPath (afterColonSlash "s3://b/a:/c".toList)) := by
  decide

/-- Claim C3 (amended): for every input containing the separator `":/"`
exactly once, `fix_path` preserves the scheme prefix verbatim and
filesystem-normalizes only the portion after the separator. -/
theorem claim_C3 (l : List Char) (h1 : hasColonSlash l = true)
    (h2 : hasColonSlash (afterColonSlash l) = false) :
    fix_path l = beforeColonSlash l ++ ':' :: '/' :: normPath (afterColonSlash l) :=
  fix_path_one_sep l h1 h2

/-- Witness for C3 at the spec's example: `"scheme://bucket//a//b"`
normalizes to `"scheme://bucket/a/b"`. -/
theorem claim_C3_witness :
    hasColonSlash "scheme://bucket//a//b".toList = true ∧
    hasColonSlash (afterColonSlash "scheme://bucket//a//b".toList) = false ∧
    fix_path "scheme://bucket//a//b".toList =
      beforeColonSlash "scheme://bucket//a//b".toList ++ ':' :: '/' ::
        normPath (afterColonSlash "scheme://bucket//a//b".toList) ∧
    fix_path "scheme://bucket//a//b".toList = "scheme://bucket/a/b".toList :=
  ⟨by decide, by decide, claim_C3 _ (by decide) (by decide), by decide⟩

/-- Claim C4: constructing from `"s3:/bucket"` (fewer than 3 slash-split
segments) reaches the download path, where `extract_s3_info` hits an
out-of-range index (`none`, Python `IndexError`); no `MalformedReferenceError`
type exists anywhere in the code. -/
theorem claim_C4 :
    startsWithS3 (fix_path "s3:/bucket".toList) = true ∧
    (("s3:/bucket".toList.splitOn '/').length = 2) ∧
    extract_s3_info (fix_path "s3:/bucket".toList) = none := by
  decide

end S3Reader

namespace S3Reader

theorem splitOn_char_cons (c x : Char) (xs : List Char) :
    (x :: xs).splitOn c =
      if x = c then [] :: xs.splitOn c else (xs.splitOn c).modifyHead (List.cons x) := by
  by_cases hx : x = c <;> simp [List.splitOn, List.splitOnP_cons, hx]

theorem splitOn_char_ne_nil (c : Char) (l : List Char) : l.splitOn c ≠ [] :=
  List.splitOnP_ne_nil _ l

theorem not_mem_of_mem_splitOn {c : Char} {x l : List Char} (hx : x ∈ l.splitOn c) :
    c ∉ x := by
  induction l generalizing x with
  | nil =>
    simp only [List.splitOn_nil, List.mem_singleton] at hx
    subst hx
    exact List.not_mem_nil c
  | cons a l ih =>
    rw [splitOn_char_cons] at hx
    by_cases hac : a = c
    · rw [if_pos hac] at hx
      rcases List.mem_cons.mp hx with rfl | hx'
      · exact List.not_mem_nil c
      · exact ih hx'
    · rw [if_neg hac] at hx
      rcases hsp : l.splitOn c with _ | ⟨h, t⟩
      · exact absurd hsp (splitOn_char_ne_nil c l)
      · rw [hsp, List.modifyHead] at hx
        rcases List.mem_cons.mp hx with rfl | hx'
        · intro hmem
          rcases List.mem_cons.mp hmem with rfl | hmem'
          · exact hac rfl
          · exact ih (hsp ▸ List.mem_cons_self h t) hmem'
        · exact ih (hsp ▸ List.mem_cons_of_mem h hx')

theorem intercalate_one (sep h : List Char) : List.intercalate sep [h] = h := by
  simp [List.intercalate]

theorem intercalate_cons2 (sep h y : List Char) (t : List (List Char)) :
    List.intercalate sep (h :: y :: t) = h ++ sep ++ List.intercalate sep (y :: t) := by
  simp [List.intercalate, List.intersperse_cons_cons]

theorem intercalate_cons_eq_append (sep h : List Char) (t : List (List Char)) :
    ∃ X, List.intercalate sep (h :: t) = h ++ X := by
  cases t with
  | nil => exact ⟨[], by rw [intercalate_one, List.append_nil]⟩
  | cons y t2 => exact ⟨sep ++ List.intercalate sep (y :: t2), by
      rw [intercalate_cons2, List.append_assoc]⟩

theorem pathRoot_cases (s : List Char) :
    pathRoot s = [] ∨ pathRoot s = ['/'] ∨ pathRoot s = ['/', '/'] := by
  unfold pathRoot
  split
  · split
    · split
      · exact Or.inr (Or.inl rfl)
      · exact Or.inr (Or.inr rfl)
    · exact Or.inr (Or.inl rfl)
  · exact Or.inl rfl

theorem pathRoot_of_ne (x : Char) (hx : x ≠ '/') (l : List Char) : pathRoot (x :: l) = [] := by
  simp [pathRoot, hx]

theorem pathRoot_slash_one (x : Char) (hx : x ≠ '/') (l : List Char) :
    pathRoot ('/' :: x :: l) = ['/'] := by
  simp [pathRoot, hx]

theorem pathRoot_slash_two (x : Char) (hx : x ≠ '/') (l : List Char) :
    pathRoot ('/' :: '/' :: x :: l) = ['/', '/'] := by
  simp [pathRoot, hx]

end S3Reader

namespace S3Reader

theorem normPath_ne_nil (s : List Char) : normPath s ≠ [] := by
  rcases hsegs : (s.splitOn '/').filter keepSeg with _ | ⟨h, t⟩
  · rcases pathRoot_cases s with hr | hr | hr <;> simp [normPath, hsegs, hr]
  · have hmemf : h ∈ (s.splitOn '/').filter keepSeg := by
      rw [hsegs]; exact List.mem_cons_self h t
    have hh : h ≠ [] := by
      have := List.of_mem_filter hmemf
      simp [keepSeg] at this
      exact this.1
    obtain ⟨X, hX⟩ := intercalate_cons_eq_append ['/'] h t
    simp [normPath, hsegs, hX, List.append_eq_nil, hh]

theorem normPath_idem (s : List Char) : normPath (normPath s) = normPath s := by
  rcases hsegs : (s.splitOn '/').filter keepSeg with _ | ⟨h, t⟩
  · rcases pathRoot_cases s with hr | hr | hr
    · have ho : normPath s = ['.'] := by simp [normPath, hsegs, hr]
      rw [ho]; decide
    · have ho : normPath s = ['/'] := by simp [normPath, hsegs, hr]
      rw [ho]; decide
    · have ho : normPath s = ['/', '/'] := by simp [normPath, hsegs, hr]
      rw [ho]; decide
  · have hkeep : ∀ x ∈ h :: t, keepSeg x = true := by
      intro x hx
      have hmemf : x ∈ (s.splitOn '/').filter keepSeg := by rw [hsegs]; exact hx
      exact List.of_mem_filter hmemf
    have hmem : ∀ x ∈ h :: t, '/' ∉ x := by
      intro x hx
      have hmemf : x ∈ (s.splitOn '/').filter keepSeg := by rw [hsegs]; exact hx
      exact not_mem_of_mem_splitOn (List.mem_of_mem_filter hmemf)
    have hinter : (List.intercalate ['/'] (h :: t)).splitOn '/' = h :: t :=
      List.splitOn_intercalate (h :: t) '/' hmem (by simp)
    have hfil : (h :: t).filter keepSeg = h :: t := List.filter_eq_self.mpr hkeep
    have hh : h ≠ [] := by
      have := hkeep h (List.mem_cons_self h t)
      simp [keepSeg] at this
      exact this.1
    obtain ⟨hc, htl, hhead⟩ : ∃ c t0, h = c :: t0 := by
      rcases h with _ | ⟨c, t0⟩
      · exact absurd rfl hh
      · exact ⟨c, t0, rfl⟩
    have hc_ne : hc ≠ '/' := by
      intro hcc
      exact hmem h (List.mem_cons_self h t) (by rw [hhead, hcc]; exact List.mem_cons_self _ _)
    obtain ⟨X, hX⟩ := intercalate_cons_eq_append ['/'] h t
    have hXc : List.intercalate ['/'] (h :: t) = hc :: (htl ++ X) := by
      rw [hX, hhead]; rfl
    have ho : normPath s = pathRoot s ++ List.intercalate ['/'] (h :: t) := by
      simp [normPath, hsegs]
    rcases pathRoot_cases s with hr | hr | hr
    · rw [ho, hr, List.nil_append]
      have hroot2 : pathRoot (List.intercalate ['/'] (h :: t)) = [] := by
        rw [hXc]; exact pathRoot_of_ne hc hc_ne _
      simp [normPath, hinter, hfil, hroot2]
    · rw [ho, hr]
      have hsing : ['/'] ++ List.intercalate ['/'] (h :: t) =
          '/' :: List.intercalate ['/'] (h :: t) := rfl
      rw [hsing]
      have hsp2 : ('/' :: List.intercalate ['/'] (h :: t)).splitOn '/' = [] :: h :: t := by
        rw [splitOn_char_cons, if_pos rfl, hinter]
      have hroot2 : pathRoot ('/' :: List.intercalate ['/'] (h :: t)) = ['/'] := by
        rw [hXc]; exact pathRoot_slash_one hc hc_ne _
      have hfil2 : ([] :: h :: t).filter keepSeg = h :: t := by
        rw [List.filter_cons]
        simp [keepSeg, hfil]
      simp [normPath, hsp2, hfil2, hroot2]
    · rw [ho, hr]
      have hsing : ['/', '/'] ++ List.intercalate ['/'] (h :: t) =
          '/' :: '/' :: List.intercalate ['/'] (h :: t) := rfl
      rw [hsing]
      have hsp2 : ('/' :: '/' :: List.intercalate ['/'] (h :: t)).splitOn '/' =
          [] :: [] :: h :: t := by
        rw [splitOn_char_cons, if_pos rfl, splitOn_char_cons, if_pos rfl, hinter]
      have hroot2 : pathRoot ('/' :: '/' :: List.intercalate ['/'] (h :: t)) = ['/', '/'] := by
        rw [hXc]; exact pathRoot_slash_two hc hc_ne _
      have hfil2 : ([] :: [] :: h :: t).filter keepSeg = h :: t := by
        rw [List.filter_cons, List.filter_cons]
        simp [keepSeg, hfil]
      simp [normPath, hsp2, hfil2, hroot2]

end S3Reader

namespace S3Reader

theorem hasColonSlash_cons (x : Char) (q : List Char) :
    hasColonSlash (x :: q) = (((x == ':') && (q.headD ' ' == '/')) || hasColonSlash q) := by
  cases q with
  | nil =>
    simp [hasColonSlash, (by decide : ((' ' == '/') : Bool) = false)]
  | cons y q2 =>
    by_cases hx : x = ':' <;> by_cases hy : y = '/'
    · rw [hasColonSlash_cons2, if_pos ⟨hx, hy⟩]
      simp [hx, hy]
    · rw [hasColonSlash_cons2, if_neg (fun hc => hy hc.2)]
      simp [hy]
    · rw [hasColonSlash_cons2, if_neg (fun hc => hx hc.1)]
      simp [hx]
    · rw [hasColonSlash_cons2, if_neg (fun hc => hx hc.1)]
      simp [hx]

theorem hasColonSlash_of_no_slash (l : List Char) (h : '/' ∉ l) : hasColonSlash l = false := by
  induction l with
  | nil => rfl
  | cons x q ih =>
    have hq : '/' ∉ q := fun hm => h (List.mem_cons_of_mem x hm)
    rw [hasColonSlash_cons, ih hq]
    cases q with
    | nil => simp [(by decide : ((' ' == '/') : Bool) = false)]
    | cons y q2 =>
      have hy : y ≠ '/' := fun hyy => h (by rw [hyy] at *; exact List.mem_cons_of_mem x (List.mem_cons_self '/' q2))
      simp [hy]

theorem hasColonSlash_append_slash (s1 q : List Char) (hs1 : '/' ∉ s1) :
    hasColonSlash (s1 ++ '/' :: q) = ((s1.getLastD ' ' == ':') || hasColonSlash q) := by
  induction s1 with
  | nil =>
    rw [List.nil_append, hasColonSlash_cons]
    simp [(by decide : (('/' == ':') : Bool) = false),
      (by decide : ((' ' == ':') : Bool) = false)]
  | cons x s2 ih =>
    have hx : x ≠ '/' := fun hxx => hs1 (hxx ▸ List.mem_cons_self x s2)
    have hs2 : '/' ∉ s2 := fun hm => hs1 (List.mem_cons_of_mem x hm)
    rw [List.cons_append, hasColonSlash_cons, ih hs2]
    cases s2 with
    | nil =>
      simp [(by decide : ((' ' == ':') : Bool) = false), List.getLastD]
    | cons y s3 =>
      have hy : y ≠ '/' := fun hyy => hs2 (hyy ▸ List.mem_cons_self y s3)
      simp [hy, List.getLastD_cons]

theorem hCENL_cons2 (s y : List Char) (rest : List (List Char)) :
    hasColonEndNonLast (s :: y :: rest) =
      ((s.getLastD ' ' == ':') || hasColonEndNonLast (y :: rest)) := rfl

theorem hasColonSlash_intercalate (segs : List (List Char))
    (hmem : ∀ x ∈ segs, '/' ∉ x) :
    hasColonSlash (List.intercalate ['/'] segs) = hasColonEndNonLast segs := by
  induction segs with
  | nil => simp [List.intercalate, hasColonEndNonLast, hasColonSlash]
  | cons h t ih =>
    cases t with
    | nil =>
      rw [intercalate_one]
      rw [hasColonSlash_of_no_slash h (hmem h (List.mem_cons_self h []))]
      rfl
    | cons y t2 =>
      have hmem2 : ∀ x ∈ y :: t2, '/' ∉ x := fun x hx => hmem x (List.mem_cons_of_mem h hx)
      have happ : List.intercalate ['/'] (h :: y :: t2) =
          h ++ '/' :: List.intercalate ['/'] (y :: t2) := by
        rw [intercalate_cons2, List.append_assoc]
        rfl
      rw [happ, hasColonSlash_append_slash h _ (hmem h (List.mem_cons_self h _)), ih hmem2,
        hCENL_cons2]

theorem hCENL_cons_of (x : List Char) (xs : List (List Char))
    (h : hasColonEndNonLast xs = true) : hasColonEndNonLast (x :: xs) = true := by
  cases xs with
  | nil => exact absurd h (by simp [hasColonEndNonLast])
  | cons y t => rw [hCENL_cons2, h, Bool.or_true]

theorem hCENL_end (x : List Char) (xs : List (List Char))
    (hx : (x.getLastD ' ' == ':') = true) (hne : xs ≠ []) :
    hasColonEndNonLast (x :: xs) = true := by
  cases xs with
  | nil => exact absurd rfl hne
  | cons y t => rw [hCENL_cons2, hx, Bool.true_or]

theorem hCENL_filter (p : List Char → Bool) (L : List (List Char))
    (h : hasColonEndNonLast (L.filter p) = true) : hasColonEndNonLast L = true := by
  induction L with
  | nil => exact absurd h (by simp [hasColonEndNonLast])
  | cons a L ih =>
    rw [List.filter_cons] at h
    by_cases hp : p a = true
    · rw [if_pos hp] at h
      rcases hfl : L.filter p with _ | ⟨b, t⟩
      · rw [hfl] at h
        exact absurd h (by simp [hasColonEndNonLast])
      · rw [hfl, hCENL_cons2] at h
        rcases Bool.or_eq_true_iff.mp h with ha | hrest
        · have hLne : L ≠ [] := by
            rintro rfl
            simp at hfl
          exact hCENL_end a L ha hLne
        · exact hCENL_cons_of a L (ih (by rw [hfl]; exact hrest))
    · rw [if_neg hp] at h
      exact hCENL_cons_of a L (ih h)

theorem hasColonSlash_normPath (s : List Char) (h : hasColonSlash s = false) :
    hasColonSlash (normPath s) = false := by
  have hsplit_mem : ∀ x ∈ s.splitOn '/', '/' ∉ x := fun x hx => not_mem_of_mem_splitOn hx
  have hs_eq : List.intercalate ['/'] (s.splitOn '/') = s := List.intercalate_splitOn s '/'
  have hL : hasColonEndNonLast (s.splitOn '/') = false := by
    have hh := hasColonSlash_intercalate (s.splitOn '/') hsplit_mem
    rw [hs_eq] at hh
    rw [← hh]
    exact h
  have hsegs_f : hasColonEndNonLast ((s.splitOn '/').filter keepSeg) = false := by
    rcases hcc : hasColonEndNonLast ((s.splitOn '/').filter keepSeg) with _ | _
    · rfl
    · exact absurd (hCENL_filter keepSeg _ hcc) (by rw [hL]; simp)
  rcases hsegs : (s.splitOn '/').filter keepSeg with _ | ⟨h1, t1⟩
  · rcases pathRoot_cases s with hr | hr | hr <;> simp [normPath, hsegs, hr] <;> decide
  · have hmem1 : ∀ x ∈ h1 :: t1, '/' ∉ x := by
      intro x hx
      have hmemf : x ∈ (s.splitOn '/').filter keepSeg := by rw [hsegs]; exact hx
      exact not_mem_of_mem_splitOn (List.mem_of_mem_filter hmemf)
    have ho : normPath s = pathRoot s ++ List.intercalate ['/'] (h1 :: t1) := by
      simp [normPath, hsegs]
    have hI : hasColonSlash (List.intercalate ['/'] (h1 :: t1)) = false := by
      rw [hasColonSlash_intercalate _ hmem1, ← hsegs]
      exact hsegs_f
    rw [ho]
    rcases pathRoot_cases s with hr | hr | hr <;> rw [hr]
    · simpa using hI
    · rw [List.singleton_append, hasColonSlash_cons, hI]
      simp [(by decide : (('/' == ':') : Bool) = false)]
    · have : ['/', '/'] ++ List.intercalate ['/'] (h1 :: t1) =
          '/' :: '/' :: List.intercalate ['/'] (h1 :: t1) := rfl
      rw [this, hasColonSlash_cons, hasColonSlash_cons, hI]
      simp [(by decide : (('/' == ':') : Bool) = false)]

end S3Reader

namespace S3Reader

/-- Claim C7: on scheme-free paths `fix_path` is exactly POSIX path
normalization and is idempotent; the empty path maps to itself. -/
theorem claim_C7 (p : List Char) (h : hasColonSlash p = false) :
    (p ≠ [] → fix_path p = normPath p) ∧
    fix_path (fix_path p) = fix_path p ∧
    fix_path ([] : List Char) = [] := by
  have hfp : p ≠ [] → fix_path p = normPath p := by
    intro hne
    simp only [fix_path]
    rw [if_neg hne, if_neg (by simp [h])]
  refine ⟨hfp, ?_, rfl⟩
  rcases eq_or_ne p [] with rfl | hne
  · rfl
  · rw [hfp hne]
    have hnn : normPath p ≠ [] := normPath_ne_nil p
    have hcs : hasColonSlash (normPath p) = false := hasColonSlash_normPath p h
    simp only [fix_path]
    rw [if_neg hnn, if_neg (by simp [hcs])]
    exact normPath_idem p

/-- Witness for C7 at `"a//b/./c"`, a scheme-free local path. -/
theorem claim_C7_witness :
    hasColonSlash "a//b/./c".toList = false ∧
    (("a//b/./c".toList ≠ []) →
      fix_path "a//b/./c".toList = normPath "a//b/./c".toList) ∧
    fix_path (fix_path "a//b/./c".toList) = fix_path "a//b/./c".toList ∧
    fix_path ([] : List Char) = [] ∧
    fix_path "a//b/./c".toList = "a/b/c".toList :=
  ⟨by decide, (claim_C7 "a//b/./c".toList (by decide)).1,
    (claim_C7 "a//b/./c".toList (by decide)).2.1,
    (claim_C7 "a//b/./c".toList (by decide)).2.2, by decide⟩

theorem splitOn_char_append (c : Char) (a b : List Char) :
    (a ++ c :: b).splitOn c = a.splitOn c ++ b.splitOn c := by
  induction a with
  | nil =>
    rw [List.nil_append, splitOn_char_cons, if_pos rfl]
    rfl
  | cons x a2 ih =>
    rw [List.cons_append, splitOn_char_cons, splitOn_char_cons]
    by_cases hx : x = c
    · rw [if_pos hx, if_pos hx, ih, List.cons_append]
    · rw [if_neg hx, if_neg hx, ih]
      rcases hsp : a2.splitOn c with _ | ⟨h, t⟩
      · exact absurd hsp (splitOn_char_ne_nil c a2)
      · rfl

theorem splitOn_char_of_not_mem (c : Char) (l : List Char) (h : c ∉ l) : l.splitOn c = [l] := by
  have hp : ∀ x ∈ l, ¬((x == c) = true) := by
    intro x hx hb
    rw [beq_iff_eq] at hb
    exact h (hb ▸ hx)
  show l.splitOnP (· == c) = [l]
  exact List.splitOnP_eq_single _ _ hp

theorem splitOn_dot_last (pre suf : List Char) (h : '.' ∉ suf) :
    ((pre ++ '.' :: suf).splitOn '.').getLastD [] = suf := by
  rw [splitOn_char_append, splitOn_char_of_not_mem '.' suf h]
  exact List.getLastD_concat _ _ _

/-- Claim C2 (amended): when the slash-split has at least three segments,
`extract_s3_info` returns segment 2 as the bucket, segments from 3 on
re-joined with `/` as the key, and as extension the suffix after the final
`'.'` of the last segment when the last segment contains a dot — but the
WHOLE last segment (not the empty string) when it contains no dot. -/
theorem claim_C2 (path s0 s1 b : List Char) (rest : List (List Char))
    (hsp : path.splitOn '/' = s0 :: s1 :: b :: rest) :
    (∀ pre suf, (b :: rest).getLastD [] = pre ++ '.' :: suf → '.' ∉ suf →
      extract_s3_info path = some (b, List.intercalate ['/'] rest, suf)) ∧
    ('.' ∉ (b :: rest).getLastD [] →
      extract_s3_info path = some (b, List.intercalate ['/'] rest, (b :: rest).getLastD [])) := by
  have hlen : 2 < (path.splitOn '/').length := by
    rw [hsp]
    simp [List.length_cons]
  have hbase : extract_s3_info path =
      some (b, List.intercalate ['/'] rest, (((b :: rest).getLastD []).splitOn '.').getLastD []) := by
    simp only [extract_s3_info]
    rw [dif_pos hlen]
    simp [hsp, List.getLastD_cons]
  constructor
  · intro pre suf hlast hdot
    rw [hbase, hlast, splitOn_dot_last pre suf hdot]
  · intro hdot
    rw [hbase, splitOn_char_of_not_mem '.' _ hdot]
    rfl

/-- Counterexample to claim C2 as stated: on a last segment with no `'.'`
the extension is not the empty string (it is the whole segment). -/
theorem claim_C2_counterexample :
    extract_s3_info "scheme://my-bucket/dir/file".toList ≠
      some ("my-bucket".toList, "dir/file".toList, ([] : List Char)) := by
  decide

/-- Witness for C2 at the spec's example `"scheme://my-bucket/dir/file.csv"`:
bucket `my-bucket`, key `dir/file.csv`, extension `csv`. -/
theorem claim_C2_witness :
    ("scheme://my-bucket/dir/file.csv".toList.splitOn '/' =
      ["scheme:".toList, [], "my-bucket".toList, "dir".toList, "file.csv".toList]) ∧
    extract_s3_info "scheme://my-bucket/dir/file.csv".toList =
      some ("my-bucket".toList,
        List.intercalate ['/'] ["dir".toList, "file.csv".toList], "csv".toList) ∧
    extract_s3_info "scheme://my-bucket/dir/file.csv".toList =
      some ("my-bucket".toList, "dir/file.csv".toList, "csv".toList) :=
  ⟨by decide,
    (claim_C2 "scheme://my-bucket/dir/file.csv".toList "scheme:".toList [] "my-bucket".toList
        ["dir".toList, "file.csv".toList] (by decide)).1
      "file".toList "csv".toList (by decide) (by decide),
    by decide⟩

end S3Reader

namespace S3Reader

theorem download_noextract (env : Env) (path : List Char) (tmp : Option (List Char)) (s : Proc)
    (hex : extract_s3_info path = none) :
    download_s3_file env path tmp s = (s, tmp, none) := by
  simp [download_s3_file, hex]

theorem download_success (env : Env) (path : List Char) (tmp : Option (List Char)) (s : Proc)
    (b k e : List Char) (hex : extract_s3_info path = some (b, k, e))
    (hs : env.sessionOk = true) (hdl : env.downloadOk = true) :
    download_s3_file env path tmp s =
      (⟨s.rng, (env.tempBase ++ '.' :: e) :: s.disk⟩,
        some (env.tempBase ++ '.' :: e), some (env.tempBase ++ '.' :: e)) := by
  simp [download_s3_file, hex, hs, hdl]

theorem download_fail (env : Env) (path : List Char) (tmp : Option (List Char)) (s : Proc)
    (b k e : List Char) (hex : extract_s3_info path = some (b, k, e))
    (hf : env.sessionOk = false ∨ env.downloadOk = false) :
    download_s3_file env path tmp s =
      (⟨env.perturb s.rng, (env.tempBase ++ '.' :: e) :: s.disk⟩, tmp, none) := by
  rcases hf with hf | hf
  · simp [download_s3_file, hex, hf]
  · rcases hs : env.sessionOk with _ | _ <;> simp [download_s3_file, hex, hf, hs]

theorem post_init_local (env : Env) (input : List Char) (s : Proc)
    (h : startsWithS3 (fix_path input) = false) :
    post_init env input s = (s, some ⟨input, fix_path input, none⟩) := by
  simp only [post_init]
  rw [if_neg (by simp [h])]

theorem post_init_noextract (env : Env) (input : List Char) (s : Proc)
    (h1 : startsWithS3 (fix_path input) = true)
    (hex : extract_s3_info (fix_path input) = none) :
    post_init env input s = (s, none) := by
  simp only [post_init]
  rw [if_pos h1, download_noextract env _ none s hex]

theorem post_init_remote_success (env : Env) (input : List Char) (s : Proc)
    (b k e : List Char) (h1 : startsWithS3 (fix_path input) = true)
    (hex : extract_s3_info (fix_path input) = some (b, k, e))
    (hs : env.sessionOk = true) (hdl : env.downloadOk = true) :
    post_init env input s =
      (⟨s.rng, (env.tempBase ++ '.' :: e) :: s.disk⟩,
        some ⟨input, env.tempBase ++ '.' :: e, some (env.tempBase ++ '.' :: e)⟩) := by
  simp only [post_init]
  rw [if_pos h1, download_success env _ none s b k e hex hs hdl]

theorem post_init_remote_fail (env : Env) (input : List Char) (s : Proc)
    (b k e : List Char) (h1 : startsWithS3 (fix_path input) = true)
    (hex : extract_s3_info (fix_path input) = some (b, k, e))
    (hf : env.sessionOk = false ∨ env.downloadOk = false) :
    post_init env input s =
      (⟨env.perturb s.rng, (env.tempBase ++ '.' :: e) :: s.disk⟩, none) := by
  simp only [post_init]
  rw [if_pos h1, download_fail env _ none s b k e hex hf]

theorem post_init_inv (env : Env) (input : List Char) (s s' : Proc) (f : File)
    (b k e : List Char) (h1 : startsWithS3 (fix_path input) = true)
    (hex : extract_s3_info (fix_path input) = some (b, k, e))
    (h : post_init env input s = (s', some f)) :
    env.sessionOk = true ∧ env.downloadOk = true ∧
    s' = ⟨s.rng, (env.tempBase ++ '.' :: e) :: s.disk⟩ ∧
    f = ⟨input, env.tempBase ++ '.' :: e, some (env.tempBase ++ '.' :: e)⟩ := by
  rcases hs : env.sessionOk with _ | _
  · rw [post_init_remote_fail env input s b k e h1 hex (Or.inl hs)] at h
    exact absurd h (by simp)
  · rcases hdl : env.downloadOk with _ | _
    · rw [post_init_remote_fail env input s b k e h1 hex (Or.inr hdl)] at h
      exact absurd h (by simp)
    · rw [post_init_remote_success env input s b k e h1 hex hs hdl] at h
      rw [Prod.mk.injEq] at h
      exact ⟨rfl, rfl, h.1.symm, (Option.some.inj h.2).symm⟩

end S3Reader

namespace S3Reader

/-- Claim C1: for a local input (normalized path does not start with
`"s3:"`), construction yields the normalized path, touches no process
state (no temp file is created), the temp-file handle is null, and
destruction is a no-op on that instance. -/
theorem claim_C1 (env : Env) (input : List Char) (s : Proc)
    (h : startsWithS3 (fix_path input) = false) :
    post_init env input s = (s, some ⟨input, fix_path input, none⟩) ∧
    fileDel ⟨input, fix_path input, none⟩ s = s :=
  ⟨post_init_local env input s h, rfl⟩

/-- Witness for C1 at input `"dir//file.txt"` (normalizes to
`"dir/file.txt"`, no temp file ever). -/
theorem claim_C1_witness :
    startsWithS3 (fix_path "dir//file.txt".toList) = false ∧
    (post_init ⟨Nat.succ, true, true, "/tmp/t0".toList⟩ "dir//file.txt".toList ⟨0, []⟩ =
        (⟨0, []⟩, some ⟨"dir//file.txt".toList, fix_path "dir//file.txt".toList, none⟩) ∧
      fileDel ⟨"dir//file.txt".toList, fix_path "dir//file.txt".toList, none⟩ ⟨0, []⟩ =
        ⟨0, []⟩) :=
  ⟨by decide,
    claim_C1 ⟨Nat.succ, true, true, "/tmp/t0".toList⟩ "dir//file.txt".toList ⟨0, []⟩ (by decide)⟩

/-- Claim C5: every successful construction from a remote (s3) input leaves
the process-wide random state exactly as it found it, for EVERY possible
perturbation the session constructor applies to it. -/
theorem claim_C5 (env : Env) (input : List Char) (s s' : Proc) (f : File)
    (h1 : startsWithS3 (fix_path input) = true)
    (h : post_init env input s = (s', some f)) : s'.rng = s.rng := by
  rcases hex : extract_s3_info (fix_path input) with _ | ⟨b, k, e⟩
  · rw [post_init_noextract env input s h1 hex] at h
    rw [Prod.mk.injEq] at h
    exact absurd h.2 (by simp)
  · obtain ⟨hs, hdl, hs', hf⟩ := post_init_inv env input s s' f b k e h1 hex h
    rw [hs']

/-- Witness for C5: a session constructor that bumps the random state
(`Nat.succ`); after a successful remote construction the state is `0` again. -/
theorem claim_C5_witness :
    startsWithS3 (fix_path "s3://b/f.csv".toList) = true ∧
    post_init ⟨Nat.succ, true, true, "/tmp/t0".toList⟩ "s3://b/f.csv".toList ⟨0, []⟩ =
      (⟨0, ["/tmp/t0.csv".toList]⟩,
        some ⟨"s3://b/f.csv".toList, "/tmp/t0.csv".toList, some "/tmp/t0.csv".toList⟩) ∧
    (⟨0, ["/tmp/t0.csv".toList]⟩ : Proc).rng = (⟨0, []⟩ : Proc).rng :=
  ⟨by decide, by rfl,
    claim_C5 ⟨Nat.succ, true, true, "/tmp/t0".toList⟩ "s3://b/f.csv".toList ⟨0, []⟩
      ⟨0, ["/tmp/t0.csv".toList]⟩
      ⟨"s3://b/f.csv".toList, "/tmp/t0.csv".toList, some "/tmp/t0.csv".toList⟩
      (by decide) (by rfl)⟩

/-- Claim C6: after a successful remote construction, the resolved path
names the freshly created temp file, which exists on disk, and destruction
removes it from disk. -/
theorem claim_C6 (env : Env) (input : List Char) (s s' : Proc) (f : File)
    (b k e : List Char)
    (h1 : startsWithS3 (fix_path input) = true)
    (hex : extract_s3_info (fix_path input) = some (b, k, e))
    (hfresh : (env.tempBase ++ '.' :: e) ∉ s.disk)
    (h : post_init env input s = (s', some f)) :
    f.path = env.tempBase ++ '.' :: e ∧
    f.tmp_file = some (env.tempBase ++ '.' :: e) ∧
    (env.tempBase ++ '.' :: e) ∈ s'.disk ∧
    (env.tempBase ++ '.' :: e) ∉ (fileDel f s').disk := by
  obtain ⟨hs, hdl, hs', hf⟩ := post_init_inv env input s s' f b k e h1 hex h
  subst hs'
  subst hf
  refine ⟨rfl, rfl, List.mem_cons_self _ _, ?_⟩
  simp only [fileDel, List.erase_cons_head]
  exact hfresh

/-- Witness for C6: after constructing from `"s3://b/f.csv"` and destroying
the instance, the temp file `"/tmp/t0.csv"` is gone from disk. -/
theorem claim_C6_witness :
    startsWithS3 (fix_path "s3://b/f.csv".toList) = true ∧
    extract_s3_info (fix_path "s3://b/f.csv".toList) =
      some ("b".toList, "f.csv".toList, "csv".toList) ∧
    ("/tmp/t0".toList ++ '.' :: "csv".toList) ∉ (⟨0, []⟩ : Proc).disk ∧
    (("s3://b/f.csv".toList, "/tmp/t0.csv".toList, some "/tmp/t0.csv".toList) =
        (("s3://b/f.csv".toList, "/tmp/t0.csv".toList, some "/tmp/t0.csv".toList)) ∧
      ((⟨"s3://b/f.csv".toList, "/tmp/t0.csv".toList, some "/tmp/t0.csv".toList⟩ : File).path =
          "/tmp/t0".toList ++ '.' :: "csv".toList ∧
        (⟨"s3://b/f.csv".toList, "/tmp/t0.csv".toList,
            some "/tmp/t0.csv".toList⟩ : File).tmp_file =
          some ("/tmp/t0".toList ++ '.' :: "csv".toList) ∧
        ("/tmp/t0".toList ++ '.' :: "csv".toList) ∈
          (⟨0, ["/tmp/t0.csv".toList]⟩ : Proc).disk ∧
        ("/tmp/t0".toList ++ '.' :: "csv".toList) ∉
          (fileDel ⟨"s3://b/f.csv".toList, "/tmp/t0.csv".toList, some "/tmp/t0.csv".toList⟩
            ⟨0, ["/tmp/t0.csv".toList]⟩).disk)) :=
  ⟨by decide, by decide, by decide,
    rfl,
    claim_C6 ⟨Nat.succ, true, true, "/tmp/t0".toList⟩ "s3://b/f.csv".toList ⟨0, []⟩
      ⟨0, ["/tmp/t0.csv".toList]⟩
      ⟨"s3://b/f.csv".toList, "/tmp/t0.csv".toList, some "/tmp/t0.csv".toList⟩
      "b".toList "f.csv".toList "csv".toList
      (by decide) (by decide) (by decide) (by rfl)⟩

/-- Claim C8: a successfully constructed instance holds a temp file iff the
normalized input starts with `"s3:"`; any other scheme is left as its
normalized remote-looking string with no download and no temp file. -/
theorem claim_C8 (env : Env) (input : List Char) (s s' : Proc) (f : File)
    (h : post_init env input s = (s', some f)) :
    f.tmp_file.isSome = startsWithS3 (fix_path input) ∧
    (startsWithS3 (fix_path input) = false →
      s' = s ∧ f.path = fix_path input ∧ f.tmp_file = none) := by
  rcases hsw : startsWithS3 (fix_path input) with _ | _
  · rw [post_init_local env input s hsw] at h
    rw [Prod.mk.injEq] at h
    obtain ⟨hs', hf⟩ := h
    have hf' : f = ⟨input, fix_path input, none⟩ := (Option.some.inj hf).symm
    subst hf'
    exact ⟨rfl, fun _ => ⟨hs'.symm, rfl, rfl⟩⟩
  · rcases hex : extract_s3_info (fix_path input) with _ | ⟨b, k, e⟩
    · rw [post_init_noextract env input s hsw hex] at h
      rw [Prod.mk.injEq] at h
      exact absurd h.2 (by simp)
    · obtain ⟨hs, hdl, hs', hf⟩ := post_init_inv env input s s' f b k e hsw hex h
      subst hf
      exact ⟨rfl, fun hcon => absurd hcon (by simp)⟩

/-- Witness for C8 at the non-s3 scheme input `"http://host//x"`: normalized
to `"http://host/x"`, no download, no temp file. -/
theorem claim_C8_witness :
    post_init ⟨Nat.succ, true, true, "/tmp/t0".toList⟩ "http://host//x".toList ⟨0, []⟩ =
      (⟨0, []⟩, some ⟨"http://host//x".toList, "http://host/x".toList, none⟩) ∧
    ((⟨"http://host//x".toList, "http://host/x".toList, none⟩ : File).tmp_file.isSome =
        startsWithS3 (fix_path "http://host//x".toList) ∧
      (startsWithS3 (fix_path "http://host//x".toList) = false →
        (⟨0, []⟩ : Proc) = ⟨0, []⟩ ∧
        (⟨"http://host//x".toList, "http://host/x".toList, none⟩ : File).path =
          fix_path "http://host//x".toList ∧
        (⟨"http://host//x".toList, "http://host/x".toList, none⟩ : File).tmp_file = none)) :=
  ⟨by decide,
    claim_C8 ⟨Nat.succ, true, true, "/tmp/t0".toList⟩ "http://host//x".toList ⟨0, []⟩ ⟨0, []⟩
      ⟨"http://host//x".toList, "http://host/x".toList, none⟩ (by decide)⟩

/-- Claim C9: when session construction or the transfer fails, the saved
random state is NOT restored (the process state keeps the session
constructor's perturbation), `self.tmp_file` is never assigned (stays
`none`), and no path is returned. -/
theorem claim_C9 (env : Env) (path : List Char) (s : Proc) (b k e : List Char)
    (hex : extract_s3_info path = some (b, k, e))
    (hf : env.sessionOk = false ∨ env.downloadOk = false) :
    download_s3_file env path none s =
      (⟨env.perturb s.rng, (env.tempBase ++ '.' :: e) :: s.disk⟩, none, none) :=
  download_fail env path none s b k e hex hf

/-- Witness for C9: with a failing session whose constructor bumps the
random state from `0` to `1`, the state stays `1` — observably different
from the saved `0` — and the temp-file handle stays `none`. -/
theorem claim_C9_witness :
    extract_s3_info "s3://b/f.csv".toList =
      some ("b".toList, "f.csv".toList, "csv".toList) ∧
    download_s3_file ⟨Nat.succ, false, true, "/tmp/t0".toList⟩ "s3://b/f.csv".toList none
        ⟨0, []⟩ =
      (⟨Nat.succ 0, ("/tmp/t0".toList ++ '.' :: "csv".toList) :: ([] : List (List Char))⟩,
        none, none) ∧
    Nat.succ 0 ≠ 0 :=
  ⟨by decide,
    claim_C9 ⟨Nat.succ, false, true, "/tmp/t0".toList⟩ "s3://b/f.csv".toList ⟨0, []⟩
      "b".toList "f.csv".toList "csv".toList (by decide) (Or.inl rfl),
    by decide⟩

end S3Reader
